import Mathlib

/-!
Verification development for the PPO training engine in `agents/ppo.py`.

The Python source is embedded shallowly: numpy float arrays become `List ℚ`
(two-dimensional `(T, N)` arrays become `List (List ℚ)`, a list of `T`
rows of length `N`), TensorFlow scalar graph ops become functions on `ℚ`
or `ℝ`, and Python exceptions become `Except`/`Option` results.
-/

namespace PPOSpec

/-! ### Return / advantage estimator (`PPO.gen_batch`, lines 313-328)

The numpy code computes, on `(T, N)` arrays,

  advantages = rewards + gamma * mask * values[1:] - values[:-1]
  rewards[-1] += mask[-1] * gamma * values[-1]
  for i in range(len(rewards)-2, -1, -1):
      rewards[i] += gamma * mask[i] * rewards[i+1]
      advantages[i] += (gamma * lmda) * mask[i] * advantages[i+1]

All operations are elementwise per environment column, so the estimator is
first embedded as the scalar (one column) recursion, and below also as the
row-level recursion that the multi-environment code performs. -/

/-- Backward in-place loop `x[i] += c * m[i] * x[i+1]`, run for
`i = len-2 .. 0`: the last element is unchanged, every earlier element
adds `c * m[i]` times the already-updated successor. -/
def backwardRec (c : ℚ) : List ℚ → List ℚ → List ℚ
  | x :: xs, m :: ms =>
    match backwardRec c xs ms with
    | [] => [x]
    | y :: ys => (x + c * (m * y)) :: y :: ys
  | _, _ => []

/-- One-step advantages `rewards + gamma * mask * values[1:] - values[:-1]`
(the vectorized numpy expression, one scalar per timestep). -/
def oneStepAdv (g : ℚ) : List ℚ → List ℚ → List ℚ → List ℚ
  | r :: rs, m :: ms, v0 :: v1 :: vs =>
    ((r + g * (m * v1)) - v0) :: oneStepAdv g rs ms (v1 :: vs)
  | _, _, _ => []

/-- The bootstrap fold `rewards[-1] += mask[-1] * gamma * values[-1]`:
only the last element of the list is changed. -/
def addBootstrap (g mlast vlast : ℚ) : List ℚ → List ℚ
  | [] => []
  | [r] => [r + g * (mlast * vlast)]
  | r :: rs => r :: addBootstrap g mlast vlast rs

/-- GAE advantages of one environment column
(`gen_batch` lines 321 and 325). -/
def gen_advantages (g lm : ℚ) (r m v : List ℚ) : List ℚ :=
  backwardRec (g * lm) (oneStepAdv g r m v) m

/-- Discounted returns of one environment column
(`gen_batch` lines 322 and 324); the bootstrap value is folded into the
last slot before the backward recursion. -/
def gen_returns (g : ℚ) (r m v : List ℚ) : List ℚ :=
  backwardRec g (addBootstrap g (m.getLastD 0) (v.getLastD 0) r) m

/-- Claim C2: the numeric scenario gamma = 0.9, lambda = 0.9, two
timesteps, values `v = [1,1,1]` (with bootstrap), zero rewards and
mask `[1,1]` yields advantages `[-0.181, -0.1]` and returns
`[0.81, 0.9]`. -/
theorem gae_numeric_two_steps :
    gen_advantages (9/10) (9/10) [0, 0] [1, 1] [1, 1, 1]
      = [-(181/1000), -(1/10)] ∧
    gen_returns (9/10) [0, 0] [1, 1] [1, 1, 1] = [81/100, 9/10] := by
  norm_num [gen_advantages, gen_returns, backwardRec, oneStepAdv, addBootstrap]

/-! ### Structural lemmas for the backward recursions -/

theorem backwardRec_cons_nil (c x m : ℚ) (xs ms : List ℚ)
    (h : backwardRec c xs ms = []) :
    backwardRec c (x :: xs) (m :: ms) = [x] := by
  simp only [backwardRec]
  rw [h]

theorem backwardRec_cons_cons (c x m : ℚ) (xs ms : List ℚ) (y : ℚ) (ys : List ℚ)
    (h : backwardRec c xs ms = y :: ys) :
    backwardRec c (x :: xs) (m :: ms) = (x + c * (m * y)) :: y :: ys := by
  simp only [backwardRec]
  rw [h]

theorem backwardRec_length (c : ℚ) :
    ∀ xs ms : List ℚ, (backwardRec c xs ms).length = min xs.length ms.length := by
  intro xs
  induction xs with
  | nil => intro ms; cases ms <;> simp [backwardRec]
  | cons x xs ih =>
    intro ms
    cases ms with
    | nil => simp [backwardRec]
    | cons m ms =>
      have h := ih ms
      cases hrec : backwardRec c xs ms with
      | nil =>
        rw [hrec] at h
        rw [backwardRec_cons_nil c x m xs ms hrec]
        simp only [List.length_cons, List.length_nil] at h ⊢
        omega
      | cons y ys =>
        rw [hrec] at h
        rw [backwardRec_cons_cons c x m xs ms y ys hrec]
        simp only [List.length_cons] at h ⊢
        omega

theorem oneStepAdv_length (g : ℚ) :
    ∀ r m v : List ℚ, r.length = m.length → v.length = r.length + 1 →
      (oneStepAdv g r m v).length = r.length := by
  intro r
  induction r with
  | nil => intro m v _ _; cases m <;> cases v <;> simp [oneStepAdv]
  | cons a r ih =>
    intro m v hm hv
    cases m with
    | nil => simp at hm
    | cons b m =>
      cases v with
      | nil => simp at hv
      | cons v0 v =>
        cases v with
        | nil => simp at hv
        | cons v1 v =>
          simp only [oneStepAdv, List.length_cons]
          rw [ih m (v1 :: v) (by simpa using hm) (by simpa using hv)]

theorem addBootstrap_length (g a b : ℚ) :
    ∀ l : List ℚ, (addBootstrap g a b l).length = l.length := by
  intro l
  induction l with
  | nil => rfl
  | cons x xs ih =>
    cases xs with
    | nil => rfl
    | cons y ys => simpa [addBootstrap] using ih

/-- Splitting the backward recursion at a masked (`mask = 0`) slot: the
output is the recursion on the prefix (through the masked slot) followed
by the recursion on the suffix.  Nothing from the suffix reaches the
prefix because the continuation at the masked slot is multiplied by 0. -/
theorem backwardRec_append_zero (c : ℚ) :
    ∀ (l1 m1 : List ℚ) (x : ℚ) (l2 m2 : List ℚ),
      l1.length = m1.length → l2.length = m2.length →
      backwardRec c (l1 ++ x :: l2) (m1 ++ (0:ℚ) :: m2)
        = backwardRec c (l1 ++ [x]) (m1 ++ [(0:ℚ)]) ++ backwardRec c l2 m2 := by
  intro l1
  induction l1 with
  | nil =>
    intro m1 x l2 m2 h1 h2
    cases m1 with
    | cons b m1 => simp at h1
    | nil =>
      simp only [List.nil_append]
      have hone : backwardRec c [x] [(0:ℚ)] = [x] := rfl
      cases hrec : backwardRec c l2 m2 with
      | nil =>
        rw [backwardRec_cons_nil c x 0 l2 m2 hrec, hone]
        rfl
      | cons y ys =>
        rw [backwardRec_cons_cons c x 0 l2 m2 y ys hrec, hone]
        simp
  | cons a l1 ih =>
    intro m1 x l2 m2 h1 h2
    cases m1 with
    | nil => simp at h1
    | cons b m1 =>
      have h1' : l1.length = m1.length := by simpa using h1
      have hsplit := ih m1 x l2 m2 h1' h2
      have hlen : (backwardRec c (l1 ++ [x]) (m1 ++ [(0:ℚ)])).length
          = l1.length + 1 := by
        rw [backwardRec_length]
        simp [h1']
      cases hR1 : backwardRec c (l1 ++ [x]) (m1 ++ [(0:ℚ)]) with
      | nil => rw [hR1] at hlen; simp at hlen
      | cons r0 R1t =>
        rw [hR1] at hsplit
        have hL : backwardRec c (l1 ++ x :: l2) (m1 ++ (0:ℚ) :: m2)
            = r0 :: (R1t ++ backwardRec c l2 m2) := by simpa using hsplit
        calc backwardRec c ((a :: l1) ++ x :: l2) ((b :: m1) ++ (0:ℚ) :: m2)
            = backwardRec c (a :: (l1 ++ x :: l2)) (b :: (m1 ++ (0:ℚ) :: m2)) := rfl
          _ = (a + c * (b * r0)) :: r0 :: (R1t ++ backwardRec c l2 m2) :=
              backwardRec_cons_cons c a b _ _ r0 _ hL
          _ = backwardRec c ((a :: l1) ++ [x]) ((b :: m1) ++ [(0:ℚ)])
                ++ backwardRec c l2 m2 := by
              rw [show (a :: l1) ++ [x] = a :: (l1 ++ [x]) from rfl,
                  show (b :: m1) ++ [(0:ℚ)] = b :: (m1 ++ [(0:ℚ)]) from rfl,
                  backwardRec_cons_cons c a b _ _ r0 R1t hR1]
              simp

/-- Splitting the one-step advantage computation across an append
boundary; `w` is the value estimate of the first post-prefix state, used
both as the successor value of the last prefix slot and as the current
value of the first suffix slot. -/
theorem oneStepAdv_append (g : ℚ) :
    ∀ (r1 m1 v1 : List ℚ) (w : ℚ) (r2 m2 v2 : List ℚ),
      r1.length = m1.length → r1.length = v1.length →
      oneStepAdv g (r1 ++ r2) (m1 ++ m2) (v1 ++ w :: v2)
        = oneStepAdv g r1 m1 (v1 ++ [w]) ++ oneStepAdv g r2 m2 (w :: v2) := by
  intro r1
  induction r1 with
  | nil =>
    intro m1 v1 w r2 m2 v2 hm hv
    cases m1 with
    | cons b m1 => simp at hm
    | nil =>
      cases v1 with
      | cons cc v1 => simp at hv
      | nil => simp [oneStepAdv]
  | cons a r1 ih =>
    intro m1 v1 w r2 m2 v2 hm hv
    cases m1 with
    | nil => simp at hm
    | cons b m1 =>
      cases v1 with
      | nil => simp at hv
      | cons cc v1 =>
        have hm' : r1.length = m1.length := by simpa using hm
        have hv' : r1.length = v1.length := by simpa using hv
        cases v1 with
        | nil =>
          cases r1 with
          | cons e r1 => simp at hv'
          | nil =>
            cases m1 with
            | cons f m1 => simp at hm'
            | nil => rfl
        | cons d v1 =>
          have hIH := ih m1 (d :: v1) w r2 m2 v2 hm' (by simpa using hv')
          exact congrArg (List.cons ((a + g * (b * d)) - cc)) hIH

theorem addBootstrap_append (g a b : ℚ) :
    ∀ (l1 l2 : List ℚ), l2 ≠ [] →
      addBootstrap g a b (l1 ++ l2) = l1 ++ addBootstrap g a b l2 := by
  intro l1
  induction l1 with
  | nil => intro l2 _; simp
  | cons x l1 ih =>
    intro l2 hne
    cases hl : l1 ++ l2 with
    | nil => exact absurd (List.append_eq_nil.mp hl).2 hne
    | cons y ys =>
      simp only [List.cons_append, hl, addBootstrap]
      rw [← hl, ih l2 hne]

/-- The advantage at any index `i ≤ t` of an input whose mask is `0` at
index `t = r1.length` is computed entirely from the prefix
`r1, m1, v1, rt, vt`: the suffix beyond the masked transition does not
appear in the result. -/
theorem gen_advantages_front (g lm : ℚ) (r1 m1 v1 : List ℚ) (rt vt : ℚ)
    (r2 m2 v2 : List ℚ)
    (hlm : r1.length = m1.length) (hlv : r1.length = v1.length)
    (h2 : r2.length = m2.length) (hv2 : v2.length = r2.length + 1)
    (i : ℕ) (hi : i ≤ r1.length) :
    (gen_advantages g lm (r1 ++ rt :: r2) (m1 ++ 0 :: m2) (v1 ++ vt :: v2)).getD i 0
      = (backwardRec (g * lm) (oneStepAdv g r1 m1 (v1 ++ [vt]) ++ [rt - vt])
          (m1 ++ [(0:ℚ)])).getD i 0 := by
  obtain ⟨w, v2t, rfl⟩ : ∃ w v2t, v2 = w :: v2t := by
    cases v2 with
    | nil => simp at hv2
    | cons w v2t => exact ⟨w, v2t, rfl⟩
  unfold gen_advantages
  rw [oneStepAdv_append g r1 m1 v1 vt (rt :: r2) ((0:ℚ) :: m2) (w :: v2t) hlm hlv]
  have hsfx : oneStepAdv g (rt :: r2) ((0:ℚ) :: m2) (vt :: w :: v2t)
      = (rt - vt) :: oneStepAdv g r2 m2 (w :: v2t) := by
    simp [oneStepAdv]
  rw [hsfx]
  have hP : (oneStepAdv g r1 m1 (v1 ++ [vt])).length = r1.length :=
    oneStepAdv_length g r1 m1 (v1 ++ [vt]) hlm (by simp [← hlv])
  have hQ : (oneStepAdv g r2 m2 (w :: v2t)).length = r2.length :=
    oneStepAdv_length g r2 m2 (w :: v2t) h2 (by simpa using hv2)
  rw [backwardRec_append_zero (g * lm) _ _ _ _ _ (by rw [hP, hlm]) (by rw [hQ, h2])]
  have hbound : i < (backwardRec (g * lm)
      (oneStepAdv g r1 m1 (v1 ++ [vt]) ++ [rt - vt]) (m1 ++ [(0:ℚ)])).length := by
    rw [backwardRec_length]
    simp only [List.length_append, hP, List.length_cons, List.length_nil]
    omega
  rw [List.getD_append _ _ _ _ hbound]

/-- The return at any index `i ≤ t` of an input whose mask is `0` at
index `t = r1.length` is computed entirely from the prefix `r1, m1, rt`:
neither the suffix nor the bootstrap value contributes. -/
theorem gen_returns_front (g : ℚ) (r1 m1 v1 : List ℚ) (rt vt : ℚ)
    (r2 m2 v2 : List ℚ)
    (hlm : r1.length = m1.length) (h2 : r2.length = m2.length) (hne : r2 ≠ [])
    (i : ℕ) (hi : i ≤ r1.length) :
    (gen_returns g (r1 ++ rt :: r2) (m1 ++ 0 :: m2) (v1 ++ vt :: v2)).getD i 0
      = (backwardRec g (r1 ++ [rt]) (m1 ++ [(0:ℚ)])).getD i 0 := by
  unfold gen_returns
  set a := (m1 ++ (0:ℚ) :: m2).getLastD 0 with ha
  set b := (v1 ++ vt :: v2).getLastD 0 with hb
  obtain ⟨rr, r2t, rfl⟩ : ∃ rr r2t, r2 = rr :: r2t := by
    cases r2 with
    | nil => exact absurd rfl hne
    | cons rr r2t => exact ⟨rr, r2t, rfl⟩
  have hfold : addBootstrap g a b (r1 ++ rt :: rr :: r2t)
      = r1 ++ rt :: addBootstrap g a b (rr :: r2t) := by
    rw [addBootstrap_append g a b r1 (rt :: rr :: r2t) (by simp)]
    simp [addBootstrap]
  rw [hfold]
  rw [backwardRec_append_zero g r1 m1 rt (addBootstrap g a b (rr :: r2t)) m2 hlm
    (by rw [addBootstrap_length]; simpa using h2)]
  have hbound : i < (backwardRec g (r1 ++ [rt]) (m1 ++ [(0:ℚ)])).length := by
    rw [backwardRec_length]
    simp only [List.length_append, List.length_cons, List.length_nil, hlm]
    omega
  rw [List.getD_append _ _ _ _ hbound]

/-- Claim C3: if the continuation mask is `0` at an interior timestep
`t = r1.length`, the computed advantage and return at timestep `t - 1`
are unchanged under arbitrary replacement of data at timesteps `t + 1`
and later (rewards, masks, value estimates of any later transition) — no
advantage or return information crosses the terminal transition. -/
theorem gae_boundary_no_leak (g lm : ℚ)
    (r1 m1 v1 : List ℚ) (rt vt : ℚ)
    (r2 m2 v2 r2' m2' v2' : List ℚ)
    (hlm : r1.length = m1.length) (hlv : r1.length = v1.length)
    (ht : 1 ≤ r1.length)
    (h2 : r2.length = m2.length) (hv2 : v2.length = r2.length + 1)
    (h2' : r2'.length = m2'.length) (hv2' : v2'.length = r2'.length + 1)
    (hne : r2 ≠ []) (hne' : r2' ≠ []) :
    (gen_advantages g lm (r1 ++ rt :: r2) (m1 ++ 0 :: m2)
        (v1 ++ vt :: v2)).getD (r1.length - 1) 0
      = (gen_advantages g lm (r1 ++ rt :: r2') (m1 ++ 0 :: m2')
          (v1 ++ vt :: v2')).getD (r1.length - 1) 0 ∧
    (gen_returns g (r1 ++ rt :: r2) (m1 ++ 0 :: m2)
        (v1 ++ vt :: v2)).getD (r1.length - 1) 0
      = (gen_returns g (r1 ++ rt :: r2') (m1 ++ 0 :: m2')
          (v1 ++ vt :: v2')).getD (r1.length - 1) 0 := by
  constructor
  · rw [gen_advantages_front g lm r1 m1 v1 rt vt r2 m2 v2 hlm hlv h2 hv2 _ (by omega),
        gen_advantages_front g lm r1 m1 v1 rt vt r2' m2' v2' hlm hlv h2' hv2' _ (by omega)]
  · rw [gen_returns_front g r1 m1 v1 rt vt r2 m2 v2 hlm h2 hne _ (by omega),
        gen_returns_front g r1 m1 v1 rt vt r2' m2' v2' hlm h2' hne' _ (by omega)]

/-- Concrete instantiation of `gae_boundary_no_leak`: with the mask `0`
at timestep 1, changing the timestep-2 data (reward 11 to 100, mask 1 to
0, values 13,17 to 200,300) does not change advantage or return at
timestep 0. -/
theorem gae_boundary_no_leak_witness :
    (([(5:ℚ)].length = [(1:ℚ)].length) ∧ ([(5:ℚ)].length = [(2:ℚ)].length) ∧
      1 ≤ [(5:ℚ)].length ∧ ([(11:ℚ)].length = [(1:ℚ)].length) ∧
      ([(13:ℚ), 17].length = [(11:ℚ)].length + 1) ∧
      ([(100:ℚ)].length = [(0:ℚ)].length) ∧
      ([(200:ℚ), 300].length = [(100:ℚ)].length + 1) ∧
      ([(11:ℚ)] ≠ []) ∧ ([(100:ℚ)] ≠ [])) ∧
    ((gen_advantages (9/10) (9/10) ([(5:ℚ)] ++ 3 :: [11]) ([(1:ℚ)] ++ 0 :: [1])
        ([(2:ℚ)] ++ 7 :: [13, 17])).getD ([(5:ℚ)].length - 1) 0
      = (gen_advantages (9/10) (9/10) ([(5:ℚ)] ++ 3 :: [100]) ([(1:ℚ)] ++ 0 :: [0])
          ([(2:ℚ)] ++ 7 :: [200, 300])).getD ([(5:ℚ)].length - 1) 0 ∧
    (gen_returns (9/10) ([(5:ℚ)] ++ 3 :: [11]) ([(1:ℚ)] ++ 0 :: [1])
        ([(2:ℚ)] ++ 7 :: [13, 17])).getD ([(5:ℚ)].length - 1) 0
      = (gen_returns (9/10) ([(5:ℚ)] ++ 3 :: [100]) ([(1:ℚ)] ++ 0 :: [0])
          ([(2:ℚ)] ++ 7 :: [200, 300])).getD ([(5:ℚ)].length - 1) 0) :=
  ⟨⟨by decide, by decide, by decide, by decide, by decide, by decide, by decide,
      by decide, by decide⟩,
    gae_boundary_no_leak (9/10) (9/10) [5] [1] [2] 3 7 [11] [1] [13, 17]
      [100] [0] [200, 300] (by decide) (by decide) (by decide) (by decide)
      (by decide) (by decide) (by decide) (by decide) (by decide)⟩

/-! ### Objective evaluator, policy term (`PPO.build_graph`, lines 182-198)

  hot_actions = tf.one_hot(op.actions, num_actions, dtype=tf.float32)
  a_policy = tf.reduce_mean(op.policy * hot_actions, axis=-1)
  prob_diff = tf.sign(op.advantages) * (1 - a_policy / op.old_policy)
  policy_loss = op.advantages * rectifier(prob_diff, eps)
  policy_loss = tf.reduce_mean(policy_loss)

with the default configuration `policy_rectifier = 'relu'` and
`scale_prob_clipping = False` (so `eps = eps_clip`, a constant). -/

/-- Embeds `tf.sign` on one scalar. -/
def tfSign (x : ℚ) : ℚ := if 0 < x then 1 else if x < 0 then -1 else 0

/-- Embeds `tf.one_hot(a, n)`: 1.0 at position `a`, 0.0 elsewhere. -/
def one_hot (a n : ℕ) : List ℚ := (List.range n).map (fun j => if j = a then 1 else 0)

/-- Embeds `tf.reduce_mean` over one axis of length `l.length`. -/
def reduce_mean (l : List ℚ) : ℚ := l.sum / (l.length : ℚ)

/-- The graph tensor `a_policy = tf.reduce_mean(op.policy * hot_actions, axis=-1)` for one
row of the policy tensor: the elementwise product with the one-hot action
vector, averaged (`reduce_mean`, not `reduce_sum`) over the action axis. -/
def a_policy (policy : List ℚ) (a : ℕ) : ℚ :=
  reduce_mean (List.zipWith (fun p h => p * h) policy (one_hot a policy.length))

/-- The rectifier `eps_relu(x, eps) = tf.maximum(x, -eps)` (line 70), the default
policy rectifier; stated generically so it covers both the rational and
the real embedding of the float computation. -/
def eps_relu {α : Type} [LinearOrder α] [Neg α] (x e : α) : α := max x (-e)

/-- The graph tensor `prob_diff = tf.sign(advantages) * (1 - a_policy / old_policy)`. -/
def prob_diff (adv ap old : ℚ) : ℚ := tfSign adv * (1 - ap / old)

/-- The per-sample policy-loss terms
`advantages * eps_relu(prob_diff, eps)`, zipped over the minibatch. -/
def policyTerms (e : ℚ) : List (List ℚ) → List ℕ → List ℚ → List ℚ → List ℚ
  | p :: ps, a :: acts, o :: os, d :: ds =>
      (d * eps_relu (prob_diff d (a_policy p a) o) e) ::
        policyTerms e ps acts os ds
  | _, _, _, _ => []

/-- The scalar `policy_loss = tf.reduce_mean(advantages * rectifier(prob_diff, eps))`. -/
def policy_loss (policy : List (List ℚ)) (acts : List ℕ)
    (old advs : List ℚ) (e : ℚ) : ℚ :=
  reduce_mean (policyTerms e policy acts old advs)

/-- Claim C1 (code bug): for the uniform two-action policy `[1/2, 1/2]`,
action 0, behavior probability `old_policy = 1/2` (which is what
`gen_batch` line 303 stores: the full probability `policy[action]`),
advantage 1 and the default clip `eps = 0.2`, the graph's `a_policy` is
`1/4 = policy[action] / num_actions` — not the model's current
probability `1/2` for the taken action — so `diff = 1/2` instead of `0`
and the policy loss is `1/2` instead of `0`. -/
theorem policy_term_mean_bug :
    a_policy [1/2, 1/2] 0 = 1/4 ∧
    policy_loss [[1/2, 1/2]] [0] [1/2] [1] (1/5) = 1/2 := by
  norm_num [a_policy, policy_loss, policyTerms, reduce_mean, one_hot,
    prob_diff, tfSign, eps_relu, List.range_succ]

/-! ### Lockstep shuffle (`shuffle_arrays`, lines 61-67)

  idx = np.random.permutation(len(data[0]))
  return [[x[i] for i in idx] for x in data]

The sampled permutation `idx` is a parameter of the embedding; the numpy
sampler guarantees it is a permutation of `range n`. -/

/-- The comprehension `[x[i] for i in idx]`: one array reindexed by the shared index list. -/
def reindex {α : Type} (idx : List ℕ) (d : α) (x : List α) : List α :=
  idx.map (fun i => x.getD i d)

/-- Claim C8: whatever permutation `idx` of `range n` was sampled, there
is for every original index `i` a single new index `j` (the position of
`i` in `idx`) such that every length-`n` array of the batch — of any
element type — has at new position `j` exactly its original element at
`i`: one common permutation is applied to all arrays in lockstep. -/
theorem shuffle_arrays_lockstep {n : ℕ} (idx : List ℕ)
    (hperm : idx.Perm (List.range n)) (i : ℕ) (hi : i < n) :
    ∃ j, j < n ∧ idx.getD j 0 = i ∧
      (∀ j', j' < n → idx.getD j' 0 = i → j' = j) ∧
      ∀ (α : Type) (d : α) (x : List α), x.length = n →
        (reindex idx d x).getD j d = x.getD i d := by
  have hlen : idx.length = n := by
    simpa using hperm.length_eq
  have hmem : i ∈ idx := hperm.mem_iff.mpr (List.mem_range.mpr hi)
  have hnodup : idx.Nodup := hperm.symm.nodup (List.nodup_range n)
  refine ⟨idx.indexOf i, ?_, ?_, ?_, ?_⟩
  · rw [← hlen]
    exact List.indexOf_lt_length.mpr hmem
  · have hjlen : idx.indexOf i < idx.length := List.indexOf_lt_length.mpr hmem
    rw [List.getD_eq_getElem idx 0 hjlen]
    exact List.getElem_indexOf hjlen
  · intro j' hj' hval
    have hj'len : j' < idx.length := by omega
    have hjlen : idx.indexOf i < idx.length := List.indexOf_lt_length.mpr hmem
    have h1 : idx[j'] = i := by
      rw [← List.getD_eq_getElem idx 0 hj'len]; exact hval
    have h2 : idx[idx.indexOf i] = i := List.getElem_indexOf hjlen
    exact (List.Nodup.getElem_inj_iff hnodup).mp (h2 ▸ h1)
  · intro α d x _
    have hjlen : idx.indexOf i < idx.length := List.indexOf_lt_length.mpr hmem
    unfold reindex
    rw [List.getD_eq_getElem _ d (by simpa using hjlen), List.getElem_map]
    rw [List.getElem_indexOf hjlen]

/-- Concrete instantiation of `shuffle_arrays_lockstep` with the sampled
permutation `[2, 0, 1]` of `range 3` and original index 0. -/
theorem shuffle_arrays_lockstep_witness :
    ([2, 0, 1] : List ℕ).Perm (List.range 3) ∧ 0 < 3 ∧
    (∃ j, j < 3 ∧ ([2, 0, 1] : List ℕ).getD j 0 = 0 ∧
      (∀ j', j' < 3 → ([2, 0, 1] : List ℕ).getD j' 0 = 0 → j' = j) ∧
      ∀ (α : Type) (d : α) (x : List α), x.length = 3 →
        (reindex [2, 0, 1] d x).getD j d = x.getD 0 d) :=
  ⟨by decide, by decide,
    shuffle_arrays_lockstep [2, 0, 1] (by decide) 0 (by decide)⟩

/-! ### Configuration validation (`PPO.__init__`, lines 99-117)

  for key, val in kwargs.items():
      if (not key.startswith('_') and hasattr(self, key) and
              not callable(getattr(self, key))):
          setattr(self, key, val)
      else:
          raise ValueError("Unrecognized parameter: '%s'" % (key,))

followed (only if no keyword raised) by the construction side effects:
environment wrapping, `build_graph`, session creation and initialization,
summary writer, saver, and `restore_checkpoint`. -/

/-- The test `key.startswith('_')`, computed on the character list so it is
kernel-evaluable. -/
def underscoreFirst (k : String) : Bool :=
  match k.data with
  | [] => false
  | c :: _ => c = '_'

/-- Non-callable class attributes of `PPO` (lines 82-97): the
configuration surface plus the private `_params_loaded` flag. -/
def classAttrs : List String :=
  ["gamma", "lmda", "learning_rate", "entropy_reg", "entropy_clip",
   "vf_coef", "max_gradient_norm", "eps_clip", "reward_clip",
   "value_grad_rescaling", "policy_rectifier", "scale_prob_clipping",
   "video_freq", "_params_loaded"]

/-- Callable attributes (methods) of `PPO`. -/
def classMethods : List String :=
  ["save_checkpoint", "restore_checkpoint", "build_graph",
   "build_optimizer", "build_logits_and_values", "gen_batch",
   "next_video_name", "train_batch", "log_episode", "train"]

/-- The acceptance test of the kwargs loop: not private, `hasattr(self,
key)` (attribute or method), and not callable (not a method). -/
def recognizedKey (k : String) : Bool :=
  !underscoreFirst k
    && (classAttrs.contains k || classMethods.contains k)
    && !(classMethods.contains k)

/-- Construction side effects of `PPO.__init__` that follow the kwargs
validation loop, in source order. -/
inductive Effect : Type
  | envPool
  | buildGraph
  | tfSession
  | fileWriter
  | tfSaver
  | restoreCkpt

/-- The kwargs loop (lines 100-105): keywords are processed in order and
the first unrecognized one raises `ValueError`. -/
def applyKwargs : List String → Except String (List String)
  | [] => Except.ok []
  | k :: ks =>
    if recognizedKey k then
      match applyKwargs ks with
      | Except.ok cfg => Except.ok (k :: cfg)
      | Except.error e => Except.error e
    else Except.error ("Unrecognized parameter: " ++ k)

/-- Embeds `PPO.__init__` (lines 99-125): the kwargs loop runs before anything
else; only when every keyword is recognized do the construction side
effects happen, so an error always means an empty effect trace. -/
def ppo_init (kwargs : List String) : Except String (List String × List Effect) :=
  match applyKwargs kwargs with
  | Except.error e => Except.error e
  | Except.ok cfg =>
      Except.ok (cfg, [Effect.envPool, Effect.buildGraph, Effect.tfSession,
        Effect.fileWriter, Effect.tfSaver, Effect.restoreCkpt])

theorem applyKwargs_error (k : String) :
    ∀ ks : List String, k ∈ ks → recognizedKey k = false →
      ∃ msg, applyKwargs ks = Except.error msg := by
  intro ks
  induction ks with
  | nil => intro h _; simp at h
  | cons a ks ih =>
    intro hk hrec
    by_cases ha : recognizedKey a = true
    · have hk' : k ∈ ks := by
        rcases List.mem_cons.mp hk with h1 | h1
        · rw [h1, ha] at hrec; cases hrec
        · exact h1
      obtain ⟨msg, hmsg⟩ := ih hk' hrec
      exact ⟨msg, by simp [applyKwargs, ha, hmsg]⟩
    · exact ⟨"Unrecognized parameter: " ++ a,
        by simp [applyKwargs, eq_false_of_ne_true ha]⟩

/-- Claim C6: if any constructor keyword is not a recognized
configuration option, `PPO.__init__` raises `ValueError` and none of the
construction side effects (environment pool, graph build, session,
writer, saver, checkpoint restore) are performed. -/
theorem unrecognized_key_fails_fast (kwargs : List String)
    (h : ∃ k ∈ kwargs, recognizedKey k = false) :
    ∃ msg, ppo_init kwargs = Except.error msg := by
  obtain ⟨k, hk, hrec⟩ := h
  obtain ⟨msg, hmsg⟩ := applyKwargs_error k kwargs hk hrec
  exact ⟨msg, by simp [ppo_init, hmsg]⟩

/-- Concrete instantiation of `unrecognized_key_fails_fast`: the keyword
`lambda0` is not recognized, so construction fails with no side effects. -/
theorem unrecognized_key_fails_fast_witness :
    (∃ k ∈ ["lambda0"], recognizedKey k = false) ∧
    ∃ msg, ppo_init ["lambda0"] = Except.error msg :=
  ⟨⟨"lambda0", by decide, by decide⟩,
    unrecognized_key_fails_fast ["lambda0"] ⟨"lambda0", by decide, by decide⟩⟩

/-! ### Checkpoint manager (`PPO.save_checkpoint`, lines 127-132, and
`PPO.restore_checkpoint`, lines 134-161)

TensorFlow's variable store and `tf.train.Saver` are external (the spec
treats the tensor substrate as a black box); a checkpoint's payload is
modelled as the two stored counters, and file names structurally:
`saver.save(session, save_path, num_steps)` writes
`<logdir>/model-<num_steps>`, the pointer record (the `checkpoint` file)
names that path, and `restore_checkpoint` keeps only the basename of the
recorded path and re-roots it under the current directory (lines
149-153). -/

/-- The two `tf.get_variable` training counters (`num_steps`,
`num_episodes`, graph lines 175-176). -/
structure TFVars where
  num_steps : Int
  num_episodes : Int
deriving DecidableEq

/-- A checkpoint file name: directory prefix plus the step index
appended by `saver.save`. -/
structure CkptName where
  dir : String
  step : Int
deriving DecidableEq

/-- The checkpoint directory contents. `pointer = none` models a missing
`checkpoint` file (line 145); `some none` models a pointer file whose
first line the regex `.*"(.+)"` fails to match (line 150). -/
structure CkptStore where
  pointer : Option (Option CkptName)
  files : List (CkptName × TFVars)

/-- Python exception classes that a TensorFlow restore can raise. -/
inductive PyErr : Type
  | valueError
  | notFoundError
  | dataLossError
deriving DecidableEq

/-- The engine state relevant to checkpointing. -/
structure Engine where
  logdir : String
  num_steps : Int
  num_episodes : Int
  vars : TFVars

/-- Embeds `PPO.save_checkpoint`: load the counters into the graph
variables, then save keyed by `num_steps` and repoint the pointer
record. -/
def save_checkpoint (E : Engine) (store : CkptStore) : Engine × CkptStore :=
  let vars' : TFVars := ⟨E.num_steps, E.num_episodes⟩
  let name : CkptName := ⟨E.logdir, E.num_steps⟩
  ({ E with vars := vars' },
   { pointer := some (some name), files := (name, vars') :: store.files })

/-- Embeds `tf.train.Saver.restore` against saved files: restoring a
path with no checkpoint is a `ValueError` ("The passed save_path is not
a valid checkpoint"); otherwise the stored variables are loaded. -/
def saverRestore (files : List (CkptName × TFVars)) (k : CkptName) :
    Except PyErr TFVars :=
  match files.lookup k with
  | none => Except.error PyErr.valueError
  | some v => Except.ok v

/-- Embeds `PPO.restore_checkpoint`: return silently when the pointer
record is missing or unparseable; re-root the recorded name in the
current directory; invoke the saver restore (abstract, since TensorFlow
decides which exception a corrupt or missing file raises), catching
only `ValueError` (lines 154-157); on success read the counters back
out of the restored variables (lines 158-159). -/
def restore_checkpoint (restoreFn : CkptName → Except PyErr TFVars)
    (store : CkptStore) (logdir : String) (E : Engine) : Except PyErr Engine :=
  match store.pointer with
  | none => Except.ok E
  | some none => Except.ok E
  | some (some name) =>
    match restoreFn { name with dir := logdir } with
    | Except.error PyErr.valueError => Except.ok E
    | Except.error e => Except.error e
    | Except.ok v =>
        Except.ok { E with vars := v, num_steps := v.num_steps,
                           num_episodes := v.num_episodes }

/-- A freshly constructed engine before its `restore_checkpoint` call:
zeroed counters and zero-initialized graph variables (lines 114-119). -/
def coldEngine (logdir : String) : Engine :=
  { logdir := logdir, num_steps := 0, num_episodes := 0, vars := ⟨0, 0⟩ }

/-- The tail of `PPO.__init__` (line 125): a fresh engine immediately
restores from its log directory. -/
def init_restore (store : CkptStore) (logdir : String) : Except PyErr Engine :=
  restore_checkpoint (saverRestore store.files) store logdir (coldEngine logdir)

/-- Claim C5: after `save_checkpoint`, a fresh engine constructed with
identical parameters over the same directory restores successfully and
reports exactly the saved `num_steps` and `num_episodes`. -/
theorem checkpoint_round_trip (E : Engine) (store : CkptStore) :
    ∃ E' : Engine,
      init_restore (save_checkpoint E store).2 E.logdir = Except.ok E' ∧
      E'.num_steps = E.num_steps ∧ E'.num_episodes = E.num_episodes := by
  refine ⟨{ coldEngine E.logdir with
            vars := ⟨E.num_steps, E.num_episodes⟩,
            num_steps := E.num_steps, num_episodes := E.num_episodes },
    ?_, rfl, rfl⟩
  simp [init_restore, save_checkpoint, restore_checkpoint, saverRestore,
    coldEngine, List.lookup]

/-- Claim C7 counterexample: a restoration failure that the underlying
restore reports as `DataLossError` (e.g. corrupt checkpoint data)
propagates out of `restore_checkpoint` uncaught — the code catches only
`ValueError` — so not every restoration failure is non-fatal. -/
theorem restore_failure_fatal_cex :
    restore_checkpoint (fun _ => Except.error PyErr.dataLossError)
      ⟨some (some ⟨"logdir", 5⟩), []⟩ "logdir" (coldEngine "logdir")
      = Except.error PyErr.dataLossError := rfl

/-- Claim C7 amended: restoration is non-fatal, leaving the engine in
its fresh cold-start state, in exactly the handled cases — pointer
record missing, pointer record unparseable, or the underlying restore
failing with `ValueError` (missing/invalid checkpoint); other exception
types from the restore call propagate. -/
theorem restore_failure_nonfatal (restoreFn : CkptName → Except PyErr TFVars)
    (store : CkptStore) (logdir : String) :
    (store.pointer = none →
      restore_checkpoint restoreFn store logdir (coldEngine logdir)
        = Except.ok (coldEngine logdir)) ∧
    (store.pointer = some none →
      restore_checkpoint restoreFn store logdir (coldEngine logdir)
        = Except.ok (coldEngine logdir)) ∧
    (∀ name, store.pointer = some (some name) →
      restoreFn { name with dir := logdir } = Except.error PyErr.valueError →
      restore_checkpoint restoreFn store logdir (coldEngine logdir)
        = Except.ok (coldEngine logdir)) := by
  refine ⟨?_, ?_, ?_⟩
  · intro h; simp [restore_checkpoint, h]
  · intro h; simp [restore_checkpoint, h]
  · intro name h hfn; simp [restore_checkpoint, h, hfn]

/-- Concrete instantiation of `restore_failure_nonfatal`: with no
pointer record present, restoration is skipped and the engine keeps its
cold-start counters. -/
theorem restore_failure_nonfatal_witness :
    (⟨none, []⟩ : CkptStore).pointer = none ∧
    restore_checkpoint (fun _ => Except.error PyErr.valueError)
      ⟨none, []⟩ "d" (coldEngine "d") = Except.ok (coldEngine "d") :=
  ⟨rfl, (restore_failure_nonfatal (fun _ => Except.error PyErr.valueError)
      ⟨none, []⟩ "d").1 rfl⟩

/-! ### Policy rectifiers over the reals (`eps_relu` line 70, `eps_elu`
lines 74-75)

The float tensors are modelled as real numbers; `eps_relu` reuses the
generic definition above at `ℝ`. -/

/-- Embeds `tf.nn.elu`: identity for positive inputs, `exp(x) - 1`
otherwise. -/
noncomputable def elu (z : ℝ) : ℝ := if 0 < z then z else Real.exp z - 1

/-- The rectifier `eps_elu(x, eps) = eps * tf.nn.elu(x / eps)`. -/
noncomputable def eps_elu (x e : ℝ) : ℝ := e * elu (x / e)

theorem elu_ge_neg_one (z : ℝ) : -1 ≤ elu z := by
  unfold elu
  split_ifs with h
  · linarith
  · have := Real.exp_pos z
    linarith

theorem elu_mono (z w : ℝ) (h : z ≤ w) : elu z ≤ elu w := by
  unfold elu
  split_ifs with hz hw
  · exact h
  · linarith
  · have h1 : Real.exp z ≤ 1 := by
      rw [show (1:ℝ) = Real.exp 0 from Real.exp_zero.symm]
      exact Real.exp_le_exp.mpr (by linarith)
    linarith
  · have := Real.exp_le_exp.mpr h
    linarith

/-- Claim C10: for every clip width `eps > 0` and real input `x`, both
rectifiers are bounded below by `-eps`; `eps_relu` is `max(x, -eps)` and
agrees with the identity on `x ≥ -eps`; `eps_elu` agrees with the
identity on `x ≥ 0`; and both are monotone non-decreasing in `x`. -/
theorem rectifier_properties (x e : ℝ) (he : 0 < e) :
    eps_relu x e = max x (-e) ∧
    -e ≤ eps_relu x e ∧
    (-e ≤ x → eps_relu x e = x) ∧
    -e ≤ eps_elu x e ∧
    (0 ≤ x → eps_elu x e = x) ∧
    (∀ y, x ≤ y → eps_relu x e ≤ eps_relu y e ∧ eps_elu x e ≤ eps_elu y e) := by
  have hne : e ≠ 0 := ne_of_gt he
  refine ⟨rfl, le_max_right x (-e), fun hx => max_eq_left hx, ?_, ?_, ?_⟩
  · have h1 : -1 ≤ elu (x / e) := elu_ge_neg_one _
    calc -e = e * (-1) := by ring
      _ ≤ e * elu (x / e) := mul_le_mul_of_nonneg_left h1 he.le
      _ = eps_elu x e := rfl
  · intro hx
    have hz : 0 ≤ x / e := div_nonneg hx he.le
    rcases eq_or_lt_of_le hz with h0 | h0
    · have hx0 : x = 0 := by
        rcases div_eq_zero_iff.mp h0.symm with h | h
        · exact h
        · exact absurd h hne
      subst hx0
      unfold eps_elu elu
      simp [Real.exp_zero]
    · unfold eps_elu elu
      rw [if_pos h0, mul_comm, div_mul_cancel₀ x hne]
  · intro y hxy
    constructor
    · exact max_le_max hxy le_rfl
    · have hdiv : x / e ≤ y / e := by gcongr
      exact mul_le_mul_of_nonneg_left (elu_mono _ _ hdiv) he.le

/-- Concrete instantiation of `rectifier_properties` at `x = 1`,
`eps = 1`. -/
theorem rectifier_properties_witness :
    (0:ℝ) < 1 ∧
    (eps_relu (1:ℝ) 1 = max 1 (-1) ∧
     -1 ≤ eps_relu (1:ℝ) 1 ∧
     (-1 ≤ (1:ℝ) → eps_relu (1:ℝ) 1 = 1) ∧
     -1 ≤ eps_elu 1 1 ∧
     ((0:ℝ) ≤ 1 → eps_elu 1 1 = 1) ∧
     (∀ y, (1:ℝ) ≤ y → eps_relu (1:ℝ) 1 ≤ eps_relu y 1 ∧
        eps_elu 1 1 ≤ eps_elu y 1)) :=
  ⟨by norm_num, rectifier_properties 1 1 (by norm_num)⟩

/-! ### Trainer gradient clipping (`PPO.build_graph`, lines 239-246)

  grads, variables = zip(*optimizer.compute_gradients(total_loss))
  op.grads = grads
  if self.max_gradient_norm > 0:
      grads2, _ = tf.clip_by_global_norm(grads, self.max_gradient_norm)
  op.train = optimizer.apply_gradients(zip(grads2, variables))

Untyped `grads2` is a Python local assigned only inside the `if`, so the
`apply_gradients` line reads an unbound local whenever
`max_gradient_norm <= 0`. -/

/-- Embeds `tf.global_norm`: the global L2 norm of the flattened
gradient vector. -/
noncomputable def global_norm (g : List ℝ) : ℝ :=
  Real.sqrt ((g.map (fun x => x ^ 2)).sum)

/-- Embeds `tf.clip_by_global_norm(g, c)`: every entry is scaled by
`c / max(global_norm(g), c)`. -/
noncomputable def clip_by_global_norm (g : List ℝ) (c : ℝ) : List ℝ :=
  g.map (fun x => x * (c / max (global_norm g) c))

/-- The trainer block (lines 243-246): the configuration value
`max_gradient_norm` guards the only assignment of the local `grads2`. -/
noncomputable def build_trainer (mgn : ℚ) (grads : List ℝ) :
    Except String (List ℝ) :=
  let grads2 : Option (List ℝ) :=
    if 0 < mgn then some (clip_by_global_norm grads (mgn : ℝ)) else none
  match grads2 with
  | some g2 => Except.ok g2
  | none => Except.error
      "UnboundLocalError: local variable grads2 referenced before assignment"

theorem sum_sq_nonneg (g : List ℝ) : 0 ≤ (g.map (fun x => x ^ 2)).sum := by
  apply List.sum_nonneg
  intro a ha
  obtain ⟨x, _, rfl⟩ := List.mem_map.mp ha
  exact sq_nonneg x

theorem global_norm_scale (g : List ℝ) (k : ℝ) :
    global_norm (g.map (fun x => x * k)) = |k| * global_norm g := by
  unfold global_norm
  rw [List.map_map]
  have h1 : ((fun x => x ^ 2) ∘ fun x => x * k) = fun x => x ^ 2 * k ^ 2 := by
    funext x
    simp [mul_pow]
  rw [h1]
  rw [List.sum_map_mul_right, Real.sqrt_mul (sum_sq_nonneg g),
    Real.sqrt_sq_eq_abs, mul_comm]

/-- Claim C4: with `max_gradient_norm <= 0` the training-op construction
does not reach a disabled-clipping branch but fails on the unbound local
`grads2`; with `max_gradient_norm > 0` the clipped gradients are applied
and their global L2 norm never exceeds the bound. -/
theorem gradient_clipping_branch :
    (∀ grads : List ℝ, build_trainer 0 grads = Except.error
      "UnboundLocalError: local variable grads2 referenced before assignment") ∧
    (∀ (mgn : ℚ) (grads : List ℝ), 0 < mgn →
      build_trainer mgn grads
          = Except.ok (clip_by_global_norm grads (mgn : ℝ)) ∧
        global_norm (clip_by_global_norm grads (mgn : ℝ)) ≤ (mgn : ℝ)) := by
  constructor
  · intro grads
    simp [build_trainer]
  · intro mgn grads hpos
    have hc : (0:ℝ) < (mgn : ℝ) := by exact_mod_cast hpos
    constructor
    · simp [build_trainer, hpos]
    · have hmax : (0:ℝ) < max (global_norm grads) (mgn : ℝ) :=
        lt_of_lt_of_le hc (le_max_right _ _)
      have hs : 0 ≤ (mgn : ℝ) / max (global_norm grads) (mgn : ℝ) :=
        div_nonneg hc.le hmax.le
      unfold clip_by_global_norm
      rw [global_norm_scale, abs_of_nonneg hs]
      calc (mgn : ℝ) / max (global_norm grads) (mgn : ℝ) * global_norm grads
          ≤ (mgn : ℝ) / max (global_norm grads) (mgn : ℝ)
              * max (global_norm grads) (mgn : ℝ) :=
            mul_le_mul_of_nonneg_left (le_max_left _ _) hs
        _ = (mgn : ℝ) := div_mul_cancel₀ _ (ne_of_gt hmax)

/-- Concrete instantiation of `gradient_clipping_branch` with bound 1
and gradient vector `[3, 4]` (norm 5, clipped to norm 1). -/
theorem gradient_clipping_branch_witness :
    (0:ℚ) < 1 ∧
    (build_trainer 1 [3, 4]
        = Except.ok (clip_by_global_norm [3, 4] ((1:ℚ) : ℝ)) ∧
      global_norm (clip_by_global_norm [3, 4] ((1:ℚ) : ℝ)) ≤ ((1:ℚ) : ℝ)) :=
  ⟨by norm_num, gradient_clipping_branch.2 1 [3, 4] (by norm_num)⟩

/-! ### Rollout collection (`PPO.gen_batch`, lines 276-338)

The loop drives all `N` environments one step per timestep for `T`
timesteps, collecting states, sampled actions, behavior probabilities,
rewards, masks and value estimates; a final value query on the
post-horizon states provides the bootstrap row.  Model inference,
action sampling and environment stepping are external collaborators,
modelled as pure functions of the environment state (`step` includes
the auto-reset wrapper's transition to the next state).

The `(T, N)` numpy arrays become lists of `T` rows of length `N`, and
the elementwise numpy expressions of the estimator become `zipWith`
combinations of rows. -/

/-- One environment slot as the rollout loop sees it: the successor
state, the sampled action, the reward, the termination flag, the
probability of the sampled action, and the value estimate, each a
function of the current state. -/
structure EnvModel (S : Type) where
  step : S → S
  act : S → ℕ
  rew : S → ℚ
  done : S → Bool
  pol : S → ℚ
  val : S → ℚ

/-- The continuation mask `mask.append(not done)` (line 301), as the
float `1 - done` used by the numpy arithmetic (line 320). -/
def maskOf {S : Type} (M : EnvModel S) (s : S) : ℚ := if M.done s then 0 else 1

/-- Embeds `np.clip(x, -c, c)` (line 317). -/
def clipR (c x : ℚ) : ℚ := min (max x (-c)) c

/-- Elementwise product of two rows. -/
def rowMul : List ℚ → List ℚ → List ℚ := List.zipWith (fun a b => a * b)

/-- Elementwise `x + c * (m * y)`: one update row of the backward
recursions. -/
def rowCombine (c : ℚ) (x m y : List ℚ) : List ℚ :=
  List.zipWith (fun a b => a + c * b) x (rowMul m y)

/-- Elementwise `(r + g * (m * v1)) - v0`: one row of the vectorized
one-step advantage. -/
def oneStepRow (g : ℚ) (r m v0 v1 : List ℚ) : List ℚ :=
  List.zipWith (fun a b => a - b)
    (List.zipWith (fun a b => a + g * b) r (rowMul m v1)) v0

/-- The backward in-place loop of lines 323-325, acting on whole rows
(numpy broadcasts the update over the environment axis). -/
def backRows (c : ℚ) : List (List ℚ) → List (List ℚ) → List (List ℚ)
  | x :: xs, m :: ms =>
    match backRows c xs ms with
    | [] => [x]
    | y :: ys => rowCombine c x m y :: y :: ys
  | _, _ => []

/-- Row version of `rewards + gamma * mask * values[1:] - values[:-1]`
(line 321). -/
def oneStepRows (g : ℚ) :
    List (List ℚ) → List (List ℚ) → List (List ℚ) → List (List ℚ)
  | r :: rs, m :: ms, v0 :: v1 :: vs =>
    oneStepRow g r m v0 v1 :: oneStepRows g rs ms (v1 :: vs)
  | _, _, _ => []

/-- Row version of `rewards[-1] += mask[-1] * gamma * values[-1]`
(line 322). -/
def addBootstrapRow (g : ℚ) (mlast vlast : List ℚ) :
    List (List ℚ) → List (List ℚ)
  | [] => []
  | [r] => [rowCombine g r mlast vlast]
  | r :: rs => r :: addBootstrapRow g mlast vlast rs

/-- Current states of all environments per timestep, `t = 0 .. T`
inclusive (the last row holds the post-horizon bootstrap states). -/
def stateRows {S : Type} (M : EnvModel S) : ℕ → List S → List (List S)
  | 0, ss => [ss]
  | T + 1, ss => ss :: stateRows M T (ss.map M.step)

/-- The named rollout batch `(s, a, pi, r, A, v)` returned by
`gen_batch` (decorator line 276, return line 338). -/
structure Batch (S : Type) where
  s : List S
  a : List ℕ
  pi : List ℚ
  r : List ℚ
  A : List ℚ
  v : List ℚ

/-- Embeds `PPO.gen_batch`: collect the per-timestep rows, optionally
clip rewards, run the return/advantage recursions on rows, and flatten
(`ravel`) everything time-major. -/
def gen_batch {S : Type} (M : EnvModel S) (T : ℕ) (ss : List S)
    (g lm rclip : ℚ) : Batch S :=
  let rows := stateRows M T ss
  let tRows := rows.dropLast
  let rawRew := tRows.map (fun row => row.map M.rew)
  let rewRows := if 0 < rclip
    then rawRew.map (fun row => row.map (clipR rclip)) else rawRew
  let maskRows := tRows.map (fun row => row.map (maskOf M))
  let valRows := rows.map (fun row => row.map M.val)
  let advRows := backRows (g * lm) (oneStepRows g rewRows maskRows valRows) maskRows
  let retRows := backRows g
    (addBootstrapRow g (maskRows.getLastD []) (valRows.getLastD []) rewRows)
    maskRows
  { s := tRows.flatten
    a := (tRows.map (fun row => row.map M.act)).flatten
    pi := (tRows.map (fun row => row.map M.pol)).flatten
    r := retRows.flatten
    A := advRows.flatten
    v := valRows.dropLast.flatten }

/-! #### Row-level structural lemmas -/

theorem backRows_cons_nil (c : ℚ) (x m : List ℚ) (xs ms : List (List ℚ))
    (h : backRows c xs ms = []) :
    backRows c (x :: xs) (m :: ms) = [x] := by
  simp only [backRows]
  rw [h]

theorem backRows_cons_cons (c : ℚ) (x m : List ℚ) (xs ms : List (List ℚ))
    (y : List ℚ) (ys : List (List ℚ)) (h : backRows c xs ms = y :: ys) :
    backRows c (x :: xs) (m :: ms) = rowCombine c x m y :: y :: ys := by
  simp only [backRows]
  rw [h]

theorem backRows_length (c : ℚ) :
    ∀ xs ms : List (List ℚ),
      (backRows c xs ms).length = min xs.length ms.length := by
  intro xs
  induction xs with
  | nil => intro ms; cases ms <;> simp [backRows]
  | cons x xs ih =>
    intro ms
    cases ms with
    | nil => simp [backRows]
    | cons m ms =>
      have h := ih ms
      cases hrec : backRows c xs ms with
      | nil =>
        rw [hrec] at h
        rw [backRows_cons_nil c x m xs ms hrec]
        simp only [List.length_cons, List.length_nil] at h ⊢
        omega
      | cons y ys =>
        rw [hrec] at h
        rw [backRows_cons_cons c x m xs ms y ys hrec]
        simp only [List.length_cons] at h ⊢
        omega

theorem backRows_rect (c : ℚ) (N : ℕ) :
    ∀ xs ms : List (List ℚ),
      (∀ r ∈ xs, r.length = N) → (∀ r ∈ ms, r.length = N) →
      ∀ r ∈ backRows c xs ms, r.length = N := by
  intro xs
  induction xs with
  | nil => intro ms _ _ r hr; cases ms <;> simp [backRows] at hr
  | cons x xs ih =>
    intro ms hx hm r hr
    cases ms with
    | nil => simp [backRows] at hr
    | cons m ms =>
      have hx' : ∀ q ∈ xs, q.length = N :=
        fun q hq => hx q (List.mem_cons_of_mem x hq)
      have hm' : ∀ q ∈ ms, q.length = N :=
        fun q hq => hm q (List.mem_cons_of_mem m hq)
      cases hrec : backRows c xs ms with
      | nil =>
        rw [backRows_cons_nil c x m xs ms hrec] at hr
        simp only [List.mem_singleton] at hr
        rw [hr]
        exact hx x (List.mem_cons_self x xs)
      | cons y ys =>
        rw [backRows_cons_cons c x m xs ms y ys hrec] at hr
        have hyys : ∀ q ∈ (y :: ys), q.length = N := by
          intro q hq
          exact ih ms hx' hm' q (hrec ▸ hq)
        rcases List.mem_cons.mp hr with h1 | h1
        · subst h1
          have hxN : x.length = N := hx x (List.mem_cons_self x xs)
          have hmN : m.length = N := hm m (List.mem_cons_self m ms)
          have hyN : y.length = N := hyys y (List.mem_cons_self y ys)
          simp [rowCombine, rowMul, hxN, hmN, hyN]
        · exact hyys r h1

theorem addBootstrapRow_length (g : ℚ) (mlast vlast : List ℚ) :
    ∀ rs : List (List ℚ),
      (addBootstrapRow g mlast vlast rs).length = rs.length := by
  intro rs
  induction rs with
  | nil => rfl
  | cons r rs ih =>
    cases rs with
    | nil => rfl
    | cons r2 rs' => simpa [addBootstrapRow] using ih

theorem addBootstrapRow_rect (g : ℚ) (N : ℕ) (mlast vlast : List ℚ)
    (hml : mlast.length = N) (hvl : vlast.length = N) :
    ∀ rs : List (List ℚ), (∀ r ∈ rs, r.length = N) →
      ∀ r ∈ addBootstrapRow g mlast vlast rs, r.length = N := by
  intro rs
  induction rs with
  | nil => intro _ r hr; simp [addBootstrapRow] at hr
  | cons r rs ih =>
    intro hrect q hq
    cases rs with
    | nil =>
      simp only [addBootstrapRow, List.mem_singleton] at hq
      subst hq
      have := hrect r (List.mem_cons_self r [])
      simp [rowCombine, rowMul, this, hml, hvl]
    | cons r2 rs' =>
      simp only [addBootstrapRow, List.mem_cons] at hq
      rcases hq with h1 | h1
      · subst h1; exact hrect q (List.mem_cons_self q (r2 :: rs'))
      · exact ih (fun p hp => hrect p (List.mem_cons_of_mem r hp)) q h1

theorem oneStepRows_length (g : ℚ) :
    ∀ rs ms vs : List (List ℚ),
      rs.length = ms.length → vs.length = rs.length + 1 →
      (oneStepRows g rs ms vs).length = rs.length := by
  intro rs
  induction rs with
  | nil => intro ms vs _ _; cases ms <;> cases vs <;> simp [oneStepRows]
  | cons r rs ih =>
    intro ms vs hm hv
    cases ms with
    | nil => simp at hm
    | cons m ms =>
      cases vs with
      | nil => simp at hv
      | cons v0 vs' =>
        cases vs' with
        | nil => simp at hv
        | cons v1 vs'' =>
          simp only [oneStepRows, List.length_cons]
          rw [ih ms (v1 :: vs'') (by simpa using hm) (by simpa using hv)]

theorem oneStepRows_rect (g : ℚ) (N : ℕ) :
    ∀ rs ms vs : List (List ℚ),
      (∀ r ∈ rs, r.length = N) → (∀ r ∈ ms, r.length = N) →
      (∀ r ∈ vs, r.length = N) →
      ∀ r ∈ oneStepRows g rs ms vs, r.length = N := by
  intro rs
  induction rs with
  | nil => intro ms vs _ _ _ r hr; cases ms <;> cases vs <;> simp [oneStepRows] at hr
  | cons r rs ih =>
    intro ms vs hr hm hv q hq
    cases ms with
    | nil => simp [oneStepRows] at hq
    | cons m ms =>
      cases vs with
      | nil => simp [oneStepRows] at hq
      | cons v0 vs' =>
        cases vs' with
        | nil => simp [oneStepRows] at hq
        | cons v1 vs'' =>
          simp only [oneStepRows, List.mem_cons] at hq
          rcases hq with h1 | h1
          · subst h1
            have h2 := hr r (List.mem_cons_self r rs)
            have h3 := hm m (List.mem_cons_self m ms)
            have h4 := hv v0 (List.mem_cons_self v0 (v1 :: vs''))
            have h5 := hv v1 (List.mem_cons_of_mem v0 (List.mem_cons_self v1 vs''))
            simp [oneStepRow, rowMul, h2, h3, h4, h5]
          · exact ih ms (v1 :: vs'')
              (fun p hp => hr p (List.mem_cons_of_mem r hp))
              (fun p hp => hm p (List.mem_cons_of_mem m hp))
              (fun p hp => hv p (List.mem_cons_of_mem v0 hp)) q h1

/-! #### Time-major flattening -/

/-- The time-major enumeration of per-transition data `f t e` for
`t < T`, `e < N`, flattened in the same order as `np.ravel` on a
`(T, N)` array: index `i = t * N + e`. -/
def flatTM {α : Type} (T N : ℕ) (f : ℕ → ℕ → α) : List α :=
  ((List.range T).map (fun t => (List.range N).map (f t))).flatten

theorem flatTM_succ {α : Type} (T N : ℕ) (f : ℕ → ℕ → α) :
    flatTM (T + 1) N f
      = (List.range N).map (f 0) ++ flatTM T N (fun t e => f (t + 1) e) := by
  unfold flatTM
  rw [List.range_succ_eq_map, List.map_cons, List.flatten_cons, List.map_map]
  rfl

theorem flatTM_length {α : Type} (T N : ℕ) (f : ℕ → ℕ → α) :
    (flatTM T N f).length = T * N := by
  induction T generalizing f with
  | zero => simp [flatTM]
  | succ T ih =>
    rw [flatTM_succ]
    simp only [List.length_append, List.length_map, List.length_range, ih]
    rw [Nat.succ_mul]
    omega

theorem flatTM_congr {α : Type} (T N : ℕ) (f1 f2 : ℕ → ℕ → α)
    (h : ∀ t, t < T → ∀ e, e < N → f1 t e = f2 t e) :
    flatTM T N f1 = flatTM T N f2 := by
  unfold flatTM
  congr 1
  apply List.map_congr_left
  intro t ht
  apply List.map_congr_left
  intro e he
  exact h t (List.mem_range.mp ht) e (List.mem_range.mp he)

theorem range_map_getD {α : Type} : ∀ (l : List α) (d : α),
    (List.range l.length).map (fun e => l.getD e d) = l := by
  intro l
  induction l with
  | nil => intro d; simp
  | cons a l ih =>
    intro d
    rw [List.length_cons, List.range_succ_eq_map, List.map_cons, List.map_map]
    simp only [List.getD_cons_zero]
    congr 1
    calc (List.range l.length).map ((fun e => (a :: l).getD e d) ∘ Nat.succ)
        = (List.range l.length).map (fun e => l.getD e d) := rfl
      _ = l := ih d

theorem getD_map_lt {α β : Type} (l : List α) (f : α → β) (i : ℕ)
    (d1 : α) (d2 : β) (h : i < l.length) :
    (l.map f).getD i d2 = f (l.getD i d1) := by
  rw [List.getD_eq_getElem (l.map f) d2 (by simpa using h), List.getElem_map,
    List.getD_eq_getElem l d1 h]

theorem col_getD : ∀ (rows : List (List ℚ)) (e t : ℕ),
    (rows.map (fun r => r.getD e 0)).getD t 0 = (rows.getD t []).getD e 0 := by
  intro rows
  induction rows with
  | nil => intro e t; simp
  | cons r rows ih =>
    intro e t
    cases t with
    | zero => simp
    | succ t => simpa using ih e t

theorem getD_zipWith (f : ℚ → ℚ → ℚ) :
    ∀ (a b : List ℚ) (i : ℕ), i < a.length → i < b.length →
      (List.zipWith f a b).getD i 0 = f (a.getD i 0) (b.getD i 0) := by
  intro a
  induction a with
  | nil => intro b i ha _; simp at ha
  | cons x a ih =>
    intro b i ha hb
    cases b with
    | nil => simp at hb
    | cons y b =>
      cases i with
      | zero => simp
      | succ i =>
        simp only [List.zipWith_cons_cons, List.getD_cons_succ]
        exact ih b i (by simpa using ha) (by simpa using hb)

/-- Flattening a rectangular list of rows is the time-major enumeration
of its entries. -/
theorem flatten_rect {α : Type} (N : ℕ) (dflt : α) :
    ∀ rows : List (List α), (∀ r ∈ rows, r.length = N) →
      rows.flatten
        = flatTM rows.length N (fun t e => (rows.getD t []).getD e dflt) := by
  intro rows
  induction rows with
  | nil => intro _; rfl
  | cons r rows ih =>
    intro hrect
    have hr : r.length = N := hrect r (List.mem_cons_self r rows)
    have hrest := ih (fun q hq => hrect q (List.mem_cons_of_mem r hq))
    have h0 : (List.range N).map
        (fun e => ((r :: rows).getD 0 []).getD e dflt) = r := by
      rw [show (fun e => ((r :: rows).getD 0 []).getD e dflt)
            = (fun e => r.getD e dflt) from rfl, ← hr]
      exact range_map_getD r dflt
    have h1 : flatTM rows.length N
        (fun t e => ((r :: rows).getD (t + 1) []).getD e dflt)
          = rows.flatten := by
      rw [show (fun t e => ((r :: rows).getD (t + 1) []).getD e dflt)
            = (fun t e => (rows.getD t []).getD e dflt) from rfl]
      exact hrest.symm
    rw [List.flatten_cons, List.length_cons, flatTM_succ, h0, h1]

/-! #### Column projections: the row recursions decompose per
environment into the scalar recursions (numpy elementwise semantics) -/

theorem col_rowCombine (c : ℚ) (N e : ℕ) (he : e < N)
    (x m y : List ℚ) (hx : x.length = N) (hm : m.length = N)
    (hy : y.length = N) :
    (rowCombine c x m y).getD e 0
      = x.getD e 0 + c * (m.getD e 0 * y.getD e 0) := by
  unfold rowCombine rowMul
  rw [getD_zipWith _ x _ e (by omega)
      (by rw [List.length_zipWith]; omega),
    getD_zipWith _ m y e (by omega) (by omega)]

theorem col_oneStepRow (g : ℚ) (N e : ℕ) (he : e < N)
    (r m v0 v1 : List ℚ) (hr : r.length = N) (hm : m.length = N)
    (hv0 : v0.length = N) (hv1 : v1.length = N) :
    (oneStepRow g r m v0 v1).getD e 0
      = (r.getD e 0 + g * (m.getD e 0 * v1.getD e 0)) - v0.getD e 0 := by
  unfold oneStepRow rowMul
  rw [getD_zipWith _ _ v0 e
      (by rw [List.length_zipWith, List.length_zipWith]; omega) (by omega),
    getD_zipWith _ r _ e (by omega)
      (by rw [List.length_zipWith]; omega),
    getD_zipWith _ m v1 e (by omega) (by omega)]

theorem col_backRows (c : ℚ) (N e : ℕ) (he : e < N) :
    ∀ xs ms : List (List ℚ), xs.length = ms.length →
      (∀ r ∈ xs, r.length = N) → (∀ r ∈ ms, r.length = N) →
      (backRows c xs ms).map (fun r => r.getD e 0)
        = backwardRec c (xs.map (fun r => r.getD e 0))
            (ms.map (fun r => r.getD e 0)) := by
  intro xs
  induction xs with
  | nil =>
    intro ms h _ _
    cases ms with
    | nil => rfl
    | cons m ms => simp at h
  | cons x xs ih =>
    intro ms hlen hx hm
    cases ms with
    | nil => simp at hlen
    | cons m ms =>
      have hlen' : xs.length = ms.length := by simpa using hlen
      have hx' : ∀ q ∈ xs, q.length = N :=
        fun q hq => hx q (List.mem_cons_of_mem x hq)
      have hm' : ∀ q ∈ ms, q.length = N :=
        fun q hq => hm q (List.mem_cons_of_mem m hq)
      have hIH := ih ms hlen' hx' hm'
      cases hrec : backRows c xs ms with
      | nil =>
        have hscalar : backwardRec c (xs.map (fun r => r.getD e 0))
            (ms.map (fun r => r.getD e 0)) = [] := by
          rw [← hIH, hrec]
          rfl
        rw [backRows_cons_nil c x m xs ms hrec]
        simp only [List.map_cons, List.map_nil]
        rw [backwardRec_cons_nil c _ _ _ _ hscalar]
      | cons y ys =>
        have hscalar : backwardRec c (xs.map (fun r => r.getD e 0))
            (ms.map (fun r => r.getD e 0))
              = y.getD e 0 :: ys.map (fun r => r.getD e 0) := by
          rw [← hIH, hrec]
          rfl
        rw [backRows_cons_cons c x m xs ms y ys hrec]
        simp only [List.map_cons]
        rw [backwardRec_cons_cons c _ _ _ _ _ _ hscalar]
        have hxN : x.length = N := hx x (List.mem_cons_self x xs)
        have hmN : m.length = N := hm m (List.mem_cons_self m ms)
        have hyN : y.length = N :=
          backRows_rect c N xs ms hx' hm' y
            (by rw [hrec]; exact List.mem_cons_self y ys)
        rw [col_rowCombine c N e he x m y hxN hmN hyN]

theorem col_oneStepRows (g : ℚ) (N e : ℕ) (he : e < N) :
    ∀ rs ms vs : List (List ℚ), rs.length = ms.length →
      vs.length = rs.length + 1 →
      (∀ r ∈ rs, r.length = N) → (∀ r ∈ ms, r.length = N) →
      (∀ r ∈ vs, r.length = N) →
      (oneStepRows g rs ms vs).map (fun r => r.getD e 0)
        = oneStepAdv g (rs.map (fun r => r.getD e 0))
            (ms.map (fun r => r.getD e 0)) (vs.map (fun r => r.getD e 0)) := by
  intro rs
  induction rs with
  | nil =>
    intro ms vs h1 h2 _ _ _
    cases ms with
    | cons m ms => simp at h1
    | nil =>
      cases vs with
      | nil => simp at h2
      | cons v0 vs' =>
        cases vs' with
        | nil => rfl
        | cons v1 vs'' => simp at h2
  | cons r rs ih =>
    intro ms vs h1 h2 hr hm hv
    cases ms with
    | nil => simp at h1
    | cons m ms =>
      cases vs with
      | nil => simp at h2
      | cons v0 vs' =>
        cases vs' with
        | nil => simp at h2
        | cons v1 vs'' =>
          have hIH := ih ms (v1 :: vs'') (by simpa using h1)
            (by simpa using h2)
            (fun q hq => hr q (List.mem_cons_of_mem r hq))
            (fun q hq => hm q (List.mem_cons_of_mem m hq))
            (fun q hq => hv q (List.mem_cons_of_mem v0 hq))
          simp only [oneStepRows, oneStepAdv, List.map_cons]
          rw [col_oneStepRow g N e he r m v0 v1
              (hr r (List.mem_cons_self r rs))
              (hm m (List.mem_cons_self m ms))
              (hv v0 (List.mem_cons_self v0 (v1 :: vs'')))
              (hv v1 (List.mem_cons_of_mem v0 (List.mem_cons_self v1 vs''))),
            hIH]
          simp only [List.map_cons]

theorem col_addBootstrapRow (g : ℚ) (N e : ℕ) (he : e < N)
    (mlast vlast : List ℚ) (hml : mlast.length = N) (hvl : vlast.length = N) :
    ∀ rs : List (List ℚ), (∀ r ∈ rs, r.length = N) →
      (addBootstrapRow g mlast vlast rs).map (fun r => r.getD e 0)
        = addBootstrap g (mlast.getD e 0) (vlast.getD e 0)
            (rs.map (fun r => r.getD e 0)) := by
  intro rs
  induction rs with
  | nil => intro _; rfl
  | cons r rs ih =>
    intro hrect
    cases rs with
    | nil =>
      simp only [addBootstrapRow, addBootstrap, List.map_cons, List.map_nil]
      rw [col_rowCombine g N e he r mlast vlast
        (hrect r (List.mem_cons_self r [])) hml hvl]
    | cons r2 rs' =>
      have hIH := ih (fun q hq => hrect q (List.mem_cons_of_mem r hq))
      simp only [addBootstrapRow, addBootstrap, List.map_cons] at hIH ⊢
      rw [hIH]

/-! #### Per-environment trajectories -/

/-- The state of environment slot `e` at timestep `t` (`d` is a default
element selecting nothing when `e` is out of range). -/
def envStateAt {S : Type} (M : EnvModel S) (ss : List S) (d : S) (t e : ℕ) : S :=
  M.step^[t] (ss.getD e d)

/-- The reward-clipping branch (lines 316-317) on one scalar: active
only when `reward_clip > 0`. -/
def clipRew (rclip x : ℚ) : ℚ := if 0 < rclip then clipR rclip x else x

/-- The (clipped) reward sequence of environment slot `e`. -/
def envRewCol {S : Type} (M : EnvModel S) (ss : List S) (d : S)
    (rclip : ℚ) (T e : ℕ) : List ℚ :=
  (List.range T).map (fun t => clipRew rclip (M.rew (envStateAt M ss d t e)))

/-- The continuation-mask sequence of environment slot `e`. -/
def envMaskCol {S : Type} (M : EnvModel S) (ss : List S) (d : S)
    (T e : ℕ) : List ℚ :=
  (List.range T).map (fun t => maskOf M (envStateAt M ss d t e))

/-- The value-estimate sequence of environment slot `e`, including the
bootstrap value at index `T`. -/
def envValCol {S : Type} (M : EnvModel S) (ss : List S) (d : S)
    (T e : ℕ) : List ℚ :=
  (List.range (T + 1)).map (fun t => M.val (envStateAt M ss d t e))

theorem stateRows_eq {S : Type} (M : EnvModel S) :
    ∀ (T : ℕ) (ss : List S),
      stateRows M T ss
        = (List.range (T + 1)).map (fun t => ss.map (fun s => M.step^[t] s)) := by
  intro T
  induction T with
  | zero =>
    intro ss
    simp [stateRows, List.range_succ]
  | succ T ih =>
    intro ss
    have h1 : stateRows M (T + 1) ss = ss :: stateRows M T (ss.map M.step) := rfl
    have h2 : List.range (T + 1 + 1) = 0 :: (List.range (T + 1)).map Nat.succ :=
      List.range_succ_eq_map (T + 1)
    rw [h1, ih (ss.map M.step), h2, List.map_cons, List.map_map]
    congr 1
    · simp
    · apply List.map_congr_left
      intro t _
      show (ss.map M.step).map (fun s => M.step^[t] s)
          = ss.map (fun s => M.step^[Nat.succ t] s)
      rw [List.map_map]
      apply List.map_congr_left
      intro s _
      exact (Function.iterate_succ_apply M.step t s).symm

theorem stateRows_dropLast {S : Type} (M : EnvModel S) (T : ℕ) (ss : List S) :
    (stateRows M T ss).dropLast
      = (List.range T).map (fun t => ss.map (fun s => M.step^[t] s)) := by
  rw [stateRows_eq, List.range_succ, List.map_append, List.map_singleton,
    List.dropLast_concat]

/-- The in-horizon rows, post-composed with any per-state observation
`f`, are the time-indexed family of mapped rows. -/
theorem mapped_tRows {S β : Type} (M : EnvModel S) (T : ℕ) (ss : List S)
    (f : S → β) :
    (stateRows M T ss).dropLast.map (fun row => row.map f)
      = (List.range T).map (fun t => ss.map (fun s => f (M.step^[t] s))) := by
  rw [stateRows_dropLast, List.map_map]
  apply List.map_congr_left
  intro t _
  show (ss.map (fun s => M.step^[t] s)).map f = _
  rw [List.map_map]
  rfl

theorem mapped_rows {S β : Type} (M : EnvModel S) (T : ℕ) (ss : List S)
    (f : S → β) :
    (stateRows M T ss).map (fun row => row.map f)
      = (List.range (T + 1)).map (fun t => ss.map (fun s => f (M.step^[t] s))) := by
  rw [stateRows_eq, List.map_map]
  apply List.map_congr_left
  intro t _
  show (ss.map (fun s => M.step^[t] s)).map f = _
  rw [List.map_map]
  rfl

/-- Flattening a time-indexed family of mapped rows gives the
time-major per-transition enumeration. -/
theorem rows_flatten_flat {S β : Type} (T : ℕ) (ss : List S)
    (F : ℕ → S → β) (d : S) (dflt : β) :
    ((List.range T).map (fun t => ss.map (F t))).flatten
      = flatTM T ss.length (fun t e => F t (ss.getD e d)) := by
  have hrect : ∀ r ∈ (List.range T).map (fun t => ss.map (F t)),
      r.length = ss.length := by
    intro r hr
    obtain ⟨t, _, rfl⟩ := List.mem_map.mp hr
    exact List.length_map ss (F t)
  have hlenrows : ((List.range T).map (fun t => ss.map (F t))).length = T := by
    simp
  rw [flatten_rect ss.length dflt _ hrect, hlenrows]
  apply flatTM_congr
  intro t ht e heN
  have h1 : (List.range T).getD t 0 = t := by
    rw [List.getD_eq_getElem _ _ (by simpa using ht)]
    simp
  have h2 : ((List.range T).map (fun t => ss.map (F t))).getD t []
      = ss.map (F t) := by
    rw [getD_map_lt (List.range T) _ t 0 [] (by simpa using ht), h1]
  rw [h2, getD_map_lt ss (F t) e d dflt heN]

/-- One column of a time-indexed family of mapped rows is the
time-indexed scalar sequence of that environment slot. -/
theorem col_of_rows {S : Type} (T : ℕ) (ss : List S) (F : ℕ → S → ℚ)
    (d : S) (e : ℕ) (he : e < ss.length) :
    ((List.range T).map (fun t => ss.map (F t))).map (fun r => r.getD e 0)
      = (List.range T).map (fun t => F t (ss.getD e d)) := by
  rw [List.map_map]
  apply List.map_congr_left
  intro t _
  show (ss.map (F t)).getD e 0 = F t (ss.getD e d)
  exact getD_map_lt ss (F t) e d 0 he

/-- The reward rows with the optional clipping branch folded into a
single per-state observation. -/
theorem rewRows_eq {S : Type} (M : EnvModel S) (T : ℕ) (ss : List S)
    (rclip : ℚ) :
    (if 0 < rclip
      then ((stateRows M T ss).dropLast.map (fun row => row.map M.rew)).map
            (fun row => row.map (clipR rclip))
      else (stateRows M T ss).dropLast.map (fun row => row.map M.rew))
      = (List.range T).map
          (fun t => ss.map (fun s => clipRew rclip (M.rew (M.step^[t] s)))) := by
  by_cases h : 0 < rclip
  · rw [if_pos h, mapped_tRows, List.map_map]
    apply List.map_congr_left
    intro t _
    show ((ss.map (fun s => M.rew (M.step^[t] s))).map (clipR rclip)) = _
    rw [List.map_map]
    apply List.map_congr_left
    intro s _
    simp [clipRew, h]
  · rw [if_neg h, mapped_tRows]
    apply List.map_congr_left
    intro t _
    apply List.map_congr_left
    intro s _
    simp [clipRew, h]

theorem getLastD_map_range {β : Type} (T : ℕ) (f : ℕ → β) (dflt : β) :
    ((List.range (T + 1)).map f).getLastD dflt = f T := by
  rw [List.range_succ, List.map_append, List.map_singleton]
  simp

/-- Column `e` of the row-level return computation is the scalar
return recursion on environment `e`'s reward/mask/value sequences. -/
theorem col_returns_family {S : Type} (gq : ℚ) (ss : List S) (d : S) (T' : ℕ)
    (RF MF VF : ℕ → S → ℚ) (e : ℕ) (he : e < ss.length) :
    (backRows gq
        (addBootstrapRow gq
          (((List.range (T' + 1)).map (fun t => ss.map (MF t))).getLastD [])
          (((List.range (T' + 1 + 1)).map (fun t => ss.map (VF t))).getLastD [])
          ((List.range (T' + 1)).map (fun t => ss.map (RF t))))
        ((List.range (T' + 1)).map (fun t => ss.map (MF t)))).map
          (fun r => r.getD e 0)
      = gen_returns gq
          ((List.range (T' + 1)).map (fun t => RF t (ss.getD e d)))
          ((List.range (T' + 1)).map (fun t => MF t (ss.getD e d)))
          ((List.range (T' + 1 + 1)).map (fun t => VF t (ss.getD e d))) := by
  have hbootM : ((List.range (T' + 1)).map (fun t => ss.map (MF t))).getLastD []
      = ss.map (MF T') := getLastD_map_range T' _ []
  have hbootV : ((List.range (T' + 1 + 1)).map
      (fun t => ss.map (VF t))).getLastD [] = ss.map (VF (T' + 1)) :=
    getLastD_map_range (T' + 1) _ []
  have hrectM : ∀ r ∈ (List.range (T' + 1)).map (fun t => ss.map (MF t)),
      r.length = ss.length := by
    intro r hr
    obtain ⟨t, _, rfl⟩ := List.mem_map.mp hr
    simp
  have hrectR : ∀ r ∈ (List.range (T' + 1)).map (fun t => ss.map (RF t)),
      r.length = ss.length := by
    intro r hr
    obtain ⟨t, _, rfl⟩ := List.mem_map.mp hr
    simp
  have hbMlen : (((List.range (T' + 1)).map
      (fun t => ss.map (MF t))).getLastD []).length = ss.length := by
    rw [hbootM]; simp
  have hbVlen : (((List.range (T' + 1 + 1)).map
      (fun t => ss.map (VF t))).getLastD []).length = ss.length := by
    rw [hbootV]; simp
  have hrectBoot := addBootstrapRow_rect gq ss.length
    (((List.range (T' + 1)).map (fun t => ss.map (MF t))).getLastD [])
    (((List.range (T' + 1 + 1)).map (fun t => ss.map (VF t))).getLastD [])
    hbMlen hbVlen
    ((List.range (T' + 1)).map (fun t => ss.map (RF t))) hrectR
  have hlen : (addBootstrapRow gq
      (((List.range (T' + 1)).map (fun t => ss.map (MF t))).getLastD [])
      (((List.range (T' + 1 + 1)).map (fun t => ss.map (VF t))).getLastD [])
      ((List.range (T' + 1)).map (fun t => ss.map (RF t)))).length
        = ((List.range (T' + 1)).map (fun t => ss.map (MF t))).length := by
    rw [addBootstrapRow_length]
    simp
  rw [col_backRows gq ss.length e he _ _ hlen hrectBoot hrectM]
  rw [col_addBootstrapRow gq ss.length e he _ _ hbMlen hbVlen _ hrectR]
  rw [col_of_rows (T' + 1) ss MF d e he, col_of_rows (T' + 1) ss RF d e he]
  unfold gen_returns
  congr 1
  rw [hbootM, hbootV,
    getD_map_lt ss (MF T') e d 0 he, getD_map_lt ss (VF (T' + 1)) e d 0 he,
    getLastD_map_range T' (fun t => MF t (ss.getD e d)) 0,
    getLastD_map_range (T' + 1) (fun t => VF t (ss.getD e d)) 0]

/-- Column `e` of the row-level advantage computation is the scalar GAE
recursion on environment `e`'s reward/mask/value sequences. -/
theorem col_advantages_family {S : Type} (gq lmq : ℚ) (ss : List S) (d : S)
    (T' : ℕ) (RF MF VF : ℕ → S → ℚ) (e : ℕ) (he : e < ss.length) :
    (backRows (gq * lmq)
        (oneStepRows gq
          ((List.range (T' + 1)).map (fun t => ss.map (RF t)))
          ((List.range (T' + 1)).map (fun t => ss.map (MF t)))
          ((List.range (T' + 1 + 1)).map (fun t => ss.map (VF t))))
        ((List.range (T' + 1)).map (fun t => ss.map (MF t)))).map
          (fun r => r.getD e 0)
      = gen_advantages gq lmq
          ((List.range (T' + 1)).map (fun t => RF t (ss.getD e d)))
          ((List.range (T' + 1)).map (fun t => MF t (ss.getD e d)))
          ((List.range (T' + 1 + 1)).map (fun t => VF t (ss.getD e d))) := by
  have hrectM : ∀ r ∈ (List.range (T' + 1)).map (fun t => ss.map (MF t)),
      r.length = ss.length := by
    intro r hr
    obtain ⟨t, _, rfl⟩ := List.mem_map.mp hr
    simp
  have hrectR : ∀ r ∈ (List.range (T' + 1)).map (fun t => ss.map (RF t)),
      r.length = ss.length := by
    intro r hr
    obtain ⟨t, _, rfl⟩ := List.mem_map.mp hr
    simp
  have hrectV : ∀ r ∈ (List.range (T' + 1 + 1)).map (fun t => ss.map (VF t)),
      r.length = ss.length := by
    intro r hr
    obtain ⟨t, _, rfl⟩ := List.mem_map.mp hr
    simp
  have hlenRM : ((List.range (T' + 1)).map (fun t => ss.map (RF t))).length
      = ((List.range (T' + 1)).map (fun t => ss.map (MF t))).length := by simp
  have hlenV : ((List.range (T' + 1 + 1)).map (fun t => ss.map (VF t))).length
      = ((List.range (T' + 1)).map (fun t => ss.map (RF t))).length + 1 := by
    simp
  have hrectOne := oneStepRows_rect gq ss.length
    ((List.range (T' + 1)).map (fun t => ss.map (RF t)))
    ((List.range (T' + 1)).map (fun t => ss.map (MF t)))
    ((List.range (T' + 1 + 1)).map (fun t => ss.map (VF t)))
    hrectR hrectM hrectV
  have hlenOne : (oneStepRows gq
      ((List.range (T' + 1)).map (fun t => ss.map (RF t)))
      ((List.range (T' + 1)).map (fun t => ss.map (MF t)))
      ((List.range (T' + 1 + 1)).map (fun t => ss.map (VF t)))).length
        = ((List.range (T' + 1)).map (fun t => ss.map (MF t))).length := by
    rw [oneStepRows_length gq _ _ _ hlenRM hlenV]
    simp
  rw [col_backRows (gq * lmq) ss.length e he _ _ hlenOne hrectOne hrectM]
  rw [col_oneStepRows gq ss.length e he _ _ _ hlenRM hlenV hrectR hrectM hrectV]
  rw [col_of_rows (T' + 1) ss MF d e he, col_of_rows (T' + 1) ss RF d e he,
    col_of_rows (T' + 1 + 1) ss VF d e he]
  rfl

theorem gen_batch_s {S : Type} (M : EnvModel S) (T : ℕ) (ss : List S)
    (g lm rclip : ℚ) (d : S) :
    (gen_batch M T ss g lm rclip).s = flatTM T ss.length (envStateAt M ss d) := by
  show (stateRows M T ss).dropLast.flatten = _
  rw [stateRows_dropLast]
  exact rows_flatten_flat T ss (fun t s => M.step^[t] s) d d

theorem gen_batch_a {S : Type} (M : EnvModel S) (T : ℕ) (ss : List S)
    (g lm rclip : ℚ) (d : S) :
    (gen_batch M T ss g lm rclip).a
      = flatTM T ss.length (fun t e => M.act (envStateAt M ss d t e)) := by
  show ((stateRows M T ss).dropLast.map (fun row => row.map M.act)).flatten = _
  rw [mapped_tRows]
  exact rows_flatten_flat T ss (fun t s => M.act (M.step^[t] s)) d 0

theorem gen_batch_pi {S : Type} (M : EnvModel S) (T : ℕ) (ss : List S)
    (g lm rclip : ℚ) (d : S) :
    (gen_batch M T ss g lm rclip).pi
      = flatTM T ss.length (fun t e => M.pol (envStateAt M ss d t e)) := by
  show ((stateRows M T ss).dropLast.map (fun row => row.map M.pol)).flatten = _
  rw [mapped_tRows]
  exact rows_flatten_flat T ss (fun t s => M.pol (M.step^[t] s)) d 0

theorem gen_batch_v {S : Type} (M : EnvModel S) (T : ℕ) (ss : List S)
    (g lm rclip : ℚ) (d : S) :
    (gen_batch M T ss g lm rclip).v
      = flatTM T ss.length (fun t e => M.val (envStateAt M ss d t e)) := by
  show (((stateRows M T ss).map (fun row => row.map M.val)).dropLast).flatten = _
  rw [← List.map_dropLast, mapped_tRows]
  exact rows_flatten_flat T ss (fun t s => M.val (M.step^[t] s)) d 0

theorem gen_batch_r {S : Type} (M : EnvModel S) (T : ℕ) (ss : List S)
    (g lm rclip : ℚ) (d : S) :
    (gen_batch M T ss g lm rclip).r
      = flatTM T ss.length (fun t e =>
          (gen_returns g (envRewCol M ss d rclip T e) (envMaskCol M ss d T e)
            (envValCol M ss d T e)).getD t 0) := by
  show (backRows g
      (addBootstrapRow g
        (((stateRows M T ss).dropLast.map
            (fun row => row.map (maskOf M))).getLastD [])
        (((stateRows M T ss).map (fun row => row.map M.val)).getLastD [])
        (if 0 < rclip
          then ((stateRows M T ss).dropLast.map
                (fun row => row.map M.rew)).map
                  (fun row => row.map (clipR rclip))
          else (stateRows M T ss).dropLast.map (fun row => row.map M.rew)))
      ((stateRows M T ss).dropLast.map
        (fun row => row.map (maskOf M)))).flatten = _
  rw [rewRows_eq M T ss rclip, mapped_tRows M T ss (maskOf M),
    mapped_rows M T ss M.val]
  cases T with
  | zero => simp [flatTM, addBootstrapRow, backRows]
  | succ T' =>
    have hrectM : ∀ r ∈ (List.range (T' + 1)).map
        (fun t => ss.map (fun s => maskOf M (M.step^[t] s))),
        r.length = ss.length := by
      intro r hr
      obtain ⟨t, _, rfl⟩ := List.mem_map.mp hr
      simp
    have hrectR : ∀ r ∈ (List.range (T' + 1)).map
        (fun t => ss.map (fun s => clipRew rclip (M.rew (M.step^[t] s)))),
        r.length = ss.length := by
      intro r hr
      obtain ⟨t, _, rfl⟩ := List.mem_map.mp hr
      simp
    have hbMlen : ((((List.range (T' + 1)).map
        (fun t => ss.map (fun s => maskOf M (M.step^[t] s)))).getLastD [])).length
          = ss.length := by
      rw [getLastD_map_range]
      simp
    have hbVlen : ((((List.range (T' + 1 + 1)).map
        (fun t => ss.map (fun s => M.val (M.step^[t] s)))).getLastD [])).length
          = ss.length := by
      rw [getLastD_map_range]
      simp
    have hrectBoot := addBootstrapRow_rect g ss.length
      (((List.range (T' + 1)).map
        (fun t => ss.map (fun s => maskOf M (M.step^[t] s)))).getLastD [])
      (((List.range (T' + 1 + 1)).map
        (fun t => ss.map (fun s => M.val (M.step^[t] s)))).getLastD [])
      hbMlen hbVlen
      ((List.range (T' + 1)).map
        (fun t => ss.map (fun s => clipRew rclip (M.rew (M.step^[t] s)))))
      hrectR
    have hrectRet := backRows_rect g ss.length
      (addBootstrapRow g
        (((List.range (T' + 1)).map
          (fun t => ss.map (fun s => maskOf M (M.step^[t] s)))).getLastD [])
        (((List.range (T' + 1 + 1)).map
          (fun t => ss.map (fun s => M.val (M.step^[t] s)))).getLastD [])
        ((List.range (T' + 1)).map
          (fun t => ss.map (fun s => clipRew rclip (M.rew (M.step^[t] s))))))
      ((List.range (T' + 1)).map
        (fun t => ss.map (fun s => maskOf M (M.step^[t] s))))
      hrectBoot hrectM
    have hlenRet : (backRows g
        (addBootstrapRow g
          (((List.range (T' + 1)).map
            (fun t => ss.map (fun s => maskOf M (M.step^[t] s)))).getLastD [])
          (((List.range (T' + 1 + 1)).map
            (fun t => ss.map (fun s => M.val (M.step^[t] s)))).getLastD [])
          ((List.range (T' + 1)).map
            (fun t => ss.map (fun s => clipRew rclip (M.rew (M.step^[t] s))))))
        ((List.range (T' + 1)).map
          (fun t => ss.map (fun s => maskOf M (M.step^[t] s))))).length
          = T' + 1 := by
      rw [backRows_length, addBootstrapRow_length]
      simp
    rw [flatten_rect ss.length 0 _ hrectRet, hlenRet]
    apply flatTM_congr
    intro t ht e he
    rw [← col_getD _ e t,
      col_returns_family g ss d T'
        (fun t s => clipRew rclip (M.rew (M.step^[t] s)))
        (fun t s => maskOf M (M.step^[t] s))
        (fun t s => M.val (M.step^[t] s)) e he]
    rfl

theorem gen_batch_A {S : Type} (M : EnvModel S) (T : ℕ) (ss : List S)
    (g lm rclip : ℚ) (d : S) :
    (gen_batch M T ss g lm rclip).A
      = flatTM T ss.length (fun t e =>
          (gen_advantages g lm (envRewCol M ss d rclip T e)
            (envMaskCol M ss d T e) (envValCol M ss d T e)).getD t 0) := by
  show (backRows (g * lm)
      (oneStepRows g
        (if 0 < rclip
          then ((stateRows M T ss).dropLast.map
                (fun row => row.map M.rew)).map
                  (fun row => row.map (clipR rclip))
          else (stateRows M T ss).dropLast.map (fun row => row.map M.rew))
        ((stateRows M T ss).dropLast.map (fun row => row.map (maskOf M)))
        ((stateRows M T ss).map (fun row => row.map M.val)))
      ((stateRows M T ss).dropLast.map
        (fun row => row.map (maskOf M)))).flatten = _
  rw [rewRows_eq M T ss rclip, mapped_tRows M T ss (maskOf M),
    mapped_rows M T ss M.val]
  cases T with
  | zero => simp [flatTM, oneStepRows, backRows]
  | succ T' =>
    have hrectM : ∀ r ∈ (List.range (T' + 1)).map
        (fun t => ss.map (fun s => maskOf M (M.step^[t] s))),
        r.length = ss.length := by
      intro r hr
      obtain ⟨t, _, rfl⟩ := List.mem_map.mp hr
      simp
    have hrectR : ∀ r ∈ (List.range (T' + 1)).map
        (fun t => ss.map (fun s => clipRew rclip (M.rew (M.step^[t] s)))),
        r.length = ss.length := by
      intro r hr
      obtain ⟨t, _, rfl⟩ := List.mem_map.mp hr
      simp
    have hrectV : ∀ r ∈ (List.range (T' + 1 + 1)).map
        (fun t => ss.map (fun s => M.val (M.step^[t] s))),
        r.length = ss.length := by
      intro r hr
      obtain ⟨t, _, rfl⟩ := List.mem_map.mp hr
      simp
    have hrectOne := oneStepRows_rect g ss.length
      ((List.range (T' + 1)).map
        (fun t => ss.map (fun s => clipRew rclip (M.rew (M.step^[t] s)))))
      ((List.range (T' + 1)).map
        (fun t => ss.map (fun s => maskOf M (M.step^[t] s))))
      ((List.range (T' + 1 + 1)).map
        (fun t => ss.map (fun s => M.val (M.step^[t] s))))
      hrectR hrectM hrectV
    have hrectAdv := backRows_rect (g * lm) ss.length
      (oneStepRows g
        ((List.range (T' + 1)).map
          (fun t => ss.map (fun s => clipRew rclip (M.rew (M.step^[t] s)))))
        ((List.range (T' + 1)).map
          (fun t => ss.map (fun s => maskOf M (M.step^[t] s))))
        ((List.range (T' + 1 + 1)).map
          (fun t => ss.map (fun s => M.val (M.step^[t] s)))))
      ((List.range (T' + 1)).map
        (fun t => ss.map (fun s => maskOf M (M.step^[t] s))))
      hrectOne hrectM
    have hlenAdv : (backRows (g * lm)
        (oneStepRows g
          ((List.range (T' + 1)).map
            (fun t => ss.map (fun s => clipRew rclip (M.rew (M.step^[t] s)))))
          ((List.range (T' + 1)).map
            (fun t => ss.map (fun s => maskOf M (M.step^[t] s))))
          ((List.range (T' + 1 + 1)).map
            (fun t => ss.map (fun s => M.val (M.step^[t] s)))))
        ((List.range (T' + 1)).map
          (fun t => ss.map (fun s => maskOf M (M.step^[t] s))))).length
          = T' + 1 := by
      rw [backRows_length, oneStepRows_length g _ _ _ (by simp) (by simp)]
      simp
    rw [flatten_rect ss.length 0 _ hrectAdv, hlenAdv]
    apply flatTM_congr
    intro t ht e he
    rw [← col_getD _ e t,
      col_advantages_family g lm ss d T'
        (fun t s => clipRew rclip (M.rew (M.step^[t] s)))
        (fun t s => maskOf M (M.step^[t] s))
        (fun t s => M.val (M.step^[t] s)) e he]
    rfl

/-- Claim C9: for a rollout of `T` timesteps over the `N = ss.length`
environments, every array of the batch produced by `gen_batch` — states,
actions, behavior probabilities, returns, advantages, values — is the
time-major flattening `flatTM` of per-transition data: flat index
`i = t * N + e` denotes environment `e`'s transition at timestep `t` in
every array (states/actions/probabilities/values carry that transition's
own data, and returns/advantages carry the scalar GAE estimator of that
environment's own trajectory evaluated at `t`), and all six arrays have
length `T * N`. -/
theorem gen_batch_alignment {S : Type} (M : EnvModel S) (T : ℕ) (ss : List S)
    (g lm rclip : ℚ) (d : S) :
    (gen_batch M T ss g lm rclip).s = flatTM T ss.length (envStateAt M ss d) ∧
    (gen_batch M T ss g lm rclip).a
      = flatTM T ss.length (fun t e => M.act (envStateAt M ss d t e)) ∧
    (gen_batch M T ss g lm rclip).pi
      = flatTM T ss.length (fun t e => M.pol (envStateAt M ss d t e)) ∧
    (gen_batch M T ss g lm rclip).v
      = flatTM T ss.length (fun t e => M.val (envStateAt M ss d t e)) ∧
    (gen_batch M T ss g lm rclip).r
      = flatTM T ss.length (fun t e =>
          (gen_returns g (envRewCol M ss d rclip T e) (envMaskCol M ss d T e)
            (envValCol M ss d T e)).getD t 0) ∧
    (gen_batch M T ss g lm rclip).A
      = flatTM T ss.length (fun t e =>
          (gen_advantages g lm (envRewCol M ss d rclip T e)
            (envMaskCol M ss d T e) (envValCol M ss d T e)).getD t 0) ∧
    (gen_batch M T ss g lm rclip).s.length = T * ss.length ∧
    (gen_batch M T ss g lm rclip).a.length = T * ss.length ∧
    (gen_batch M T ss g lm rclip).pi.length = T * ss.length ∧
    (gen_batch M T ss g lm rclip).v.length = T * ss.length ∧
    (gen_batch M T ss g lm rclip).r.length = T * ss.length ∧
    (gen_batch M T ss g lm rclip).A.length = T * ss.length := by
  refine ⟨gen_batch_s M T ss g lm rclip d, gen_batch_a M T ss g lm rclip d,
    gen_batch_pi M T ss g lm rclip d, gen_batch_v M T ss g lm rclip d,
    gen_batch_r M T ss g lm rclip d, gen_batch_A M T ss g lm rclip d,
    ?_, ?_, ?_, ?_, ?_, ?_⟩
  · rw [gen_batch_s M T ss g lm rclip d, flatTM_length]
  · rw [gen_batch_a M T ss g lm rclip d, flatTM_length]
  · rw [gen_batch_pi M T ss g lm rclip d, flatTM_length]
  · rw [gen_batch_v M T ss g lm rclip d, flatTM_length]
  · rw [gen_batch_r M T ss g lm rclip d, flatTM_length]
  · rw [gen_batch_A M T ss g lm rclip d, flatTM_length]

end PPOSpec
